import Mathlib

/-!
A verification development for the move-tree explorer of a chess opening
repertoire tool.  The Python source (`movetree.py`, with game records prepared
by `loadgames.py`) is shallowly embedded: the mutable `MoveTree`/`MoveExplorer`
object graph becomes a purely functional zipper (current node plus the list of
ancestors), `build_next_level`'s in-place loop becomes a fold, and the chess
board kept by the explorer (an object of the external `chess` library, used
only for display) is omitted.  Raising `ValueError` in `advance` is modelled
by an `Except` result whose `error` payload is the explorer state at the
moment of the raise.
-/

/-- One processed game record, as produced by `loadgames.process_game_json`:
`moves` is the space-split move list, `user_color` is `true` when the user
played White, and `user_result` is one of `"win"`, `"draw"`, `"loss"`. -/
structure Game where
  moves : List String
  user_color : Bool
  user_result : String

/-- A node of `MoveTree`.  `children` is an association list in insertion
order (Python dicts preserve insertion order); the Python `parent` back
reference is represented by the explorer's zipper context instead.  Field
order: children, wins, draws, losses, total, stack. -/
inductive MoveTree : Type where
  | node (children : List (String × MoveTree)) (wins draws losses total : Nat)
      (stack : List String) : MoveTree

def MoveTree.children : MoveTree → List (String × MoveTree)
  | .node c _ _ _ _ _ => c

def MoveTree.wins : MoveTree → Nat
  | .node _ w _ _ _ _ => w

def MoveTree.draws : MoveTree → Nat
  | .node _ _ d _ _ _ => d

def MoveTree.losses : MoveTree → Nat
  | .node _ _ _ l _ _ => l

def MoveTree.total : MoveTree → Nat
  | .node _ _ _ _ t _ => t

def MoveTree.stack : MoveTree → List String
  | .node _ _ _ _ _ s => s

/-- `MoveTree.__init__`: a fresh node with no children, zero counts and an
empty stack. -/
def emptyTree : MoveTree := .node [] 0 0 0 0 []

/-- `MoveTree.from_parent`: a fresh node whose stack extends the parent's
stack by the given move. -/
def MoveTree.from_parent (parent : MoveTree) (move : String) : MoveTree :=
  .node [] 0 0 0 0 (parent.stack ++ [move])

/-- The count updates applied to a child inside `build_next_level`'s loop:
`total += 1`, then one of draws/wins/losses according to `user_result`
(anything other than `"draw"`/`"win"` counts as a loss, as in the source). -/
def bump (result : String) : MoveTree → MoveTree
  | .node c w d l t s =>
    if result == "draw" then .node c w (d + 1) l (t + 1) s
    else if result == "win" then .node c (w + 1) d l (t + 1) s
    else .node c w d (l + 1) (t + 1) s

/-- Replace the value stored under `move` in a children association list
(`self.children[move]` assignment semantics for an existing key). -/
def updateChild (children : List (String × MoveTree)) (move : String)
    (f : MoveTree → MoveTree) : List (String × MoveTree) :=
  children.map (fun p => if p.1 == move then (p.1, f p.2) else p)

/-- The body of `build_next_level`'s `for game in games` loop: skip the game
if it has no move at the node's depth; otherwise get-or-create the child for
that move (creation appends, matching dict insertion order) and bump its
counts. -/
def MoveTree.addGame (self : MoveTree) (children : List (String × MoveTree))
    (g : Game) : List (String × MoveTree) :=
  match g.moves[self.stack.length]? with
  | none => children
  | some move =>
    match children.lookup move with
    | some _ => updateChild children move (bump g.user_result)
    | none => children ++ [(move, bump g.user_result (self.from_parent move))]

/-- `MoveTree.build_next_level`: a no-op when the node already has children
(the source infers "already expanded" from `len(self.children) > 0`);
otherwise runs the per-game loop.  Only `children` is (re)computed; the
node's own counts and stack are untouched. -/
def MoveTree.build_next_level : MoveTree → List Game → MoveTree
  | .node c w d l t s, games =>
    if 0 < c.length then .node c w d l t s
    else .node (games.foldl (MoveTree.addGame (.node c w d l t s)) c) w d l t s

/-- The `OPENING_NAMES` table from the source, with tuple keys as lists. -/
def OPENING_NAMES : List (List String × String) := [
  (["e4", "c5"], "Sicilian Defense"),
  (["e4", "c5", "Nf3", "d6", "d4", "cxd4", "Nxd4", "Nf6", "Nc3", "a6"],
    "Sicilian Defense, Najdorf Variation"),
  (["e4", "c5", "Nf3", "d6", "d4", "cxd4", "Nxd4", "Nf6", "Nc3", "g6"], "Sicilian Dragon"),
  (["e4", "c5", "Nf3", "d6", "d4", "cxd4", "Nxd4", "g6"], "Sicilian Defense, Accelerated Dragon"),
  (["e4", "c5", "Nf3", "Nc6"], "Old Sicilian"),
  (["e4", "c6"], "Caro-Kann Defense"),
  (["e4", "e6"], "French Defense"),
  (["e4", "d5"], "Scandinavian Defense"),
  (["e4", "Nf6"], "Alekhine\x27s Defense"),
  (["e4", "Nc6"], "Nimzowitsch Defense"),
  (["e4", "g6"], "Modern Defense"),
  (["e4", "e5"], "King\x27s Pawn Game"),
  (["e4", "e5", "Nc3"], "Vienna Game"),
  (["e4", "e5", "d4"], "Center Game"),
  (["e4", "e5", "f4"], "King\x27s Gambit"),
  (["e4", "e5", "Nf3", "Nf6"], "Petrov\x27s Defense"),
  (["e4", "e5", "Nf3", "f5"], "Latvian Gambit"),
  (["e4", "e5", "Nf3", "d6"], "Philidor Defense"),
  (["e4", "e5", "Nf3", "d5"], "Elephant Gambit"),
  (["e4", "e5", "Nf3", "Nc6", "Bb5"], "Ruy Lopez"),
  (["e4", "e5", "Nf3", "Nc6", "Bb5", "a6"], "Ruy Lopez, Morphy Defense"),
  (["e4", "e5", "Nf3", "Nc6", "Bb5", "d6"], "Ruy Lopez, Steinitz Defense"),
  (["e4", "e5", "Nf3", "Nc6", "Bb5", "Nf6"], "Ruy Lopez, Berlin Defense"),
  (["e4", "e5", "Nf3", "Nc6", "Bc4"], "Italian Game"),
  (["e4", "e5", "Nf3", "Nc6", "Bc4", "Bc5"], "Giuco Piano"),
  (["e4", "e5", "Nf3", "Nc6", "Bc4", "Bc5", "b4"], "Italian Game, Evans Gambit"),
  (["e4", "e5", "Nf3", "Nc6", "Bc4", "Nf6", "Ng5"], "Fried Liver Attack"),
  (["e4", "e5", "Nf3", "Nc6", "Nc3"], "Three Knight\x27s Game"),
  (["e4", "e5", "Nf3", "Nc6", "Nc3", "Nf6"], "Four Knight\x27s Game"),
  (["e4", "e5", "Nf3", "Nc6", "d4"], "Scotch Game"),
  (["e4", "e5", "Nf3", "Nc6", "c3"], "Ponziani Opening"),
  (["d4", "Nf6"], "Indian Defense"),
  (["d4", "Nf6", "c4", "g6"], "King\x27s Indian Defense"),
  (["d4", "Nf6", "c4", "g6", "Nc3", "d5"], "GrÃ¼nfeld Defense"),
  (["d4", "Nf6", "c4", "e6", "Nc3", "Bb4"], "Nimzo-Indian Defense"),
  (["d4", "Nf6", "c4", "e6", "Nf3", "Bb4+"], "Bogo-Indian Defense"),
  (["d4", "Nf6", "c4", "c5", "d5"], "Benoni Defense"),
  (["d4", "Nf6", "c4", "c5", "d5", "b5"], "Benko Gambit"),
  (["d4", "d5"], "Queen\x27s Pawn Game"),
  (["d4", "d5", "c4"], "Queen\x27s Gambit"),
  (["d4", "d5", "c4", "e6"], "Queen\x27s Gambit Declined"),
  (["d4", "d5", "c4", "c6"], "Slav Defense"),
  (["d4", "f5"], "Dutch Defense"),
  (["c4"], "English Opening"),
  (["Nf3"], "Reti Opening"),
  (["a3"], "Anderssen Opening"),
  (["a4"], "Ware Opening"),
  (["b3"], "Nimzo-Larsen Attack"),
  (["b4"], "Polish Opening"),
  (["c3"], "Saragossa Opening"),
  (["d3"], "Mieses Opening"),
  (["e3"], "Van\x27t Krujis Opening"),
  (["f3"], "Gedult\x27s Opening"),
  (["f4"], "Bird Opening"),
  (["g3"], "Hungarian Opening"),
  (["g4"], "Grob Opening"),
  (["h3"], "Clemenz Opening"),
  (["h4"], "Kadas Opening")]

/-- The mutable state of a `MoveExplorer`.  `tree` is the node the explorer
currently points at (Python's `self.tree`); `ctx` is the chain of ancestors,
nearest first, each paired with the move that was taken from it — together
they represent the `parent` pointers.  The `chess.Board` field of the source
is external rendering state and is not modelled. -/
structure ExplorerState where
  all_games : List Game
  color : Bool
  opening : Option String
  opening_ply : Nat
  tree : MoveTree
  ctx : List (String × MoveTree)
  games : List Game

/-- `MoveExplorer.reset` with an explicit color argument (Python's
`color=None` default, which keeps the current color, corresponds to passing
`s.color`). -/
def ExplorerState.reset (s : ExplorerState) (color : Bool) : ExplorerState :=
  let games := s.all_games.filter (fun g => g.user_color == color)
  { s with
    color := color,
    opening := none,
    opening_ply := 0,
    tree := emptyTree.build_next_level games,
    ctx := [],
    games := games }

/-- `MoveExplorer.__init__(games, color)`: store the full game list and
reset. -/
def MoveExplorer.init (all : List Game) (color : Bool) : ExplorerState :=
  ExplorerState.reset ⟨all, color, none, 0, emptyTree, [], []⟩ color

/-- `MoveExplorer.flip`. -/
def ExplorerState.flip (s : ExplorerState) : ExplorerState :=
  s.reset (!s.color)

/-- `MoveExplorer.advance`.  A move absent from the current children raises
`ValueError` before any assignment, so the `error` payload is the unchanged
state.  On success, in source order: move to the child, narrow `games` to
those matching the child's stack, look the new stack up in `OPENING_NAMES`
(on a hit the label and ply are overwritten, on a miss both are kept), and
expand the child. -/
def ExplorerState.advanceE (s : ExplorerState) (move : String) :
    Except ExplorerState ExplorerState :=
  match s.tree.children.lookup move with
  | none => Except.error s
  | some child =>
    let games := s.games.filter
      (fun g => g.moves.take child.stack.length == child.stack)
    let op := OPENING_NAMES.lookup child.stack
    Except.ok { s with
      tree := child.build_next_level games,
      ctx := (move, s.tree) :: s.ctx,
      games := games,
      opening := match op with | some name => some name | none => s.opening,
      opening_ply := if op.isSome then child.stack.length else s.opening_ply }

/-- `advance` collapsed to a total function: the resulting state on success,
the unchanged state on `ValueError` (as the REPL observes it after catching
the exception). -/
def advanceD (s : ExplorerState) (move : String) : ExplorerState :=
  match s.advanceE move with
  | .ok s' => s'
  | .error s' => s'

/-- Plugging the current node back into its parent: the parent object's
`children` entry for `move` is the very object the explorer descended into,
so mutations of the focused child are visible through the parent. -/
def plugChild (parent : MoveTree) (move : String) (child : MoveTree) : MoveTree :=
  .node (updateChild parent.children move (fun _ => child))
    parent.wins parent.draws parent.losses parent.total parent.stack

/-- `MoveExplorer.backtrack`: a no-op at the root; otherwise move to the
parent, recompute `games` from the full game list (move-prefix filter, then
color filter, as in the source), and, when the landing depth is at or below
`opening_ply`, redo the exact catalog lookup — the label becomes the lookup
result and the ply is zeroed only on a miss. -/
def ExplorerState.backtrack (s : ExplorerState) : ExplorerState :=
  match s.ctx with
  | [] => s
  | (move, parent) :: rest =>
    let tree := plugChild parent move s.tree
    let games := (s.all_games.filter
        (fun g => g.moves.take tree.stack.length == tree.stack)).filter
        (fun g => g.user_color == s.color)
    { s with
      tree := tree,
      ctx := rest,
      games := games,
      opening :=
        if tree.stack.length ≤ s.opening_ply then OPENING_NAMES.lookup tree.stack
        else s.opening,
      opening_ply :=
        if tree.stack.length ≤ s.opening_ply then
          if (OPENING_NAMES.lookup tree.stack).isSome then s.opening_ply else 0
        else s.opening_ply }

/-- Stable insertion of a `(move, child)` pair into a list kept in descending
order of `total`: the pair is placed before the first entry whose total does
not exceed its own, so earlier entries win ties. -/
def insertByTotal (p : String × MoveTree) :
    List (String × MoveTree) → List (String × MoveTree)
  | [] => [p]
  | q :: qs => if q.2.total ≤ p.2.total then p :: q :: qs else q :: insertByTotal p qs

/-- Stable sort by `total` descending, the behaviour of Python's
`sorted(..., key=lambda p: p[1].total, reverse=True)`. -/
def sortByTotalDesc (l : List (String × MoveTree)) : List (String × MoveTree) :=
  l.foldr insertByTotal []

/-- `MoveExplorer.available_moves`. -/
def ExplorerState.available_moves (s : ExplorerState) : List (String × MoveTree) :=
  sortByTotalDesc s.tree.children

/-- `MoveExplorer.your_turn`. -/
def ExplorerState.your_turn (s : ExplorerState) : Bool :=
  (s.color && s.tree.stack.length % 2 == 0) ||
    (!s.color && s.tree.stack.length % 2 == 1)

/-- `MoveExplorer.moves_so_far`. -/
def ExplorerState.moves_so_far (s : ExplorerState) : List String :=
  s.tree.stack

/-- The `back n` branch of the REPL loop in `__main__`:
`while len(explorer.tree.stack) + 1 != moveno * 2: explorer.backtrack()`,
written with explicit fuel; `none` means the loop has not terminated within
`fuel` iterations. -/
def backLoop : Nat → Nat → ExplorerState → Option ExplorerState
  | 0, _, _ => none
  | fuel + 1, moveno, s =>
    if s.tree.stack.length + 1 = moveno * 2 then some s
    else backLoop fuel moveno s.backtrack

/-- The explorer states reachable through the operations the REPL can issue
(`start`/`flip` are `reset`; a failed `advance` leaves the state as it was). -/
inductive Reachable : ExplorerState → Prop where
  | init : ∀ all color, Reachable (MoveExplorer.init all color)
  | reset : ∀ s color, Reachable s → Reachable (s.reset color)
  | advance : ∀ s move s', Reachable s → s.advanceE move = Except.ok s' → Reachable s'
  | backtrack : ∀ s, Reachable s → Reachable s.backtrack

/-- The games whose user color matches `color` and whose move list starts
with `stack` — the set that is active at a node with that stack. -/
def gamesAt (all : List Game) (color : Bool) (stack : List String) : List Game :=
  all.filter (fun g => g.user_color == color && g.moves.take stack.length == stack)

/-- How many games of `G` have the move `move` at depth `d`. -/
def childCount (d : Nat) (G : List Game) (move : String) : Nat :=
  (G.filter (fun g => g.moves[d]? == some move)).length

/-- Sum of the `total` counters over a children list. -/
def sumTotals (children : List (String × MoveTree)) : Nat :=
  (children.map (fun p => p.2.total)).sum

/-- The distinct elements of a list in order of first occurrence. -/
def firstOccs : List String → List String
  | [] => []
  | m :: ms => m :: firstOccs (ms.filter (fun k => !(k == m)))
termination_by l => l.length
decreasing_by
  exact Nat.lt_succ_of_le (List.length_filter_le _ _)

/-- Everything `build_next_level` establishes about the children list it
produces from a fresh node: each child is a leaf one ply below the node whose
total counts the games contributing its move; keys are distinct and listed in
first-occurrence order; the totals sum to the number of games that have a
move at the node's depth. -/
structure ChildrenChar (self : MoveTree) (G : List Game)
    (ch : List (String × MoveTree)) : Prop where
  entries : ∀ p ∈ ch, p.2.stack = self.stack ++ [p.1] ∧ p.2.children = [] ∧
    p.2.total = childCount self.stack.length G p.1
  pos : ∀ p ∈ ch, 1 ≤ p.2.total
  nodup : (ch.map Prod.fst).Nodup
  keys_first : ch.map Prod.fst =
    firstOccs (G.filterMap (fun g => g.moves[self.stack.length]?))
  sum_eq : sumTotals ch =
    (G.filter (fun g => (g.moves[self.stack.length]?).isSome)).length

/-- Well-formedness of a (sub)tree relative to the full game list and color:
every child sits one ply below its parent and its `total` is exactly the
number of games active at it, which is positive. -/
inductive TreeWF (all : List Game) (color : Bool) : MoveTree → Prop where
  | node : ∀ t : MoveTree,
      (∀ p ∈ t.children, p.2.stack = t.stack ++ [p.1] ∧
        p.2.total = (gamesAt all color p.2.stack).length ∧ 1 ≤ p.2.total) →
      (∀ p ∈ t.children, TreeWF all color p.2) →
      TreeWF all color t

/-- Every node reachable through a `children` mapping has a positive total. -/
inductive AllChildrenPos : MoveTree → Prop where
  | node : ∀ t : MoveTree,
      (∀ p ∈ t.children, 1 ≤ p.2.total) →
      (∀ p ∈ t.children, AllChildrenPos p.2) →
      AllChildrenPos t

/-- The invariant tying the focused node (with current stack `stk` and total
`tot`) to its chain of ancestors. -/
def CtxChain (all : List Game) (color : Bool) :
    List String → Nat → List (String × MoveTree) → Prop
  | _, _, [] => True
  | stk, tot, (move, parent) :: rest =>
    stk = parent.stack ++ [move] ∧
    tot = (gamesAt all color stk).length ∧
    1 ≤ tot ∧
    TreeWF all color parent ∧
    CtxChain all color parent.stack parent.total rest

/-- The explorer's global invariant: the active game list is the full list
filtered by color and current stack, the focused subtree is well formed, and
the ancestor chain is coherent. -/
structure ExplorerInv (s : ExplorerState) : Prop where
  games_eq : s.games = gamesAt s.all_games s.color s.tree.stack
  tree_wf : TreeWF s.all_games s.color s.tree
  chain : CtxChain s.all_games s.color s.tree.stack s.tree.total s.ctx

/-- A single demo game used to instantiate theorems with hypotheses. -/
def demoGame : Game := ⟨["e4", "e5"], true, "win"⟩

/-- A game that ends exactly at depth 1. -/
def shortGame : Game := ⟨["e4"], true, "win"⟩

/-- A game following the Old Sicilian line. -/
def sicGame : Game := ⟨["e4", "c5", "Nf3", "Nc6"], true, "win"⟩

/-- A game following the Ruy Lopez, Morphy Defense line. -/
def ruyGame : Game := ⟨["e4", "e5", "Nf3", "Nc6", "Bb5", "a6"], true, "win"⟩

/-- A session on the Old Sicilian game. -/
def sicStart : ExplorerState := MoveExplorer.init [sicGame] true

def sicAfterC5 : ExplorerState := advanceD (advanceD sicStart "e4") "c5"

def sicAfterNf3 : ExplorerState := advanceD sicAfterC5 "Nf3"

def sicAfterNc6 : ExplorerState := advanceD sicAfterNf3 "Nc6"

/-- A session on the Ruy Lopez game, advanced to the Morphy Defense. -/
def ruyStart : ExplorerState := MoveExplorer.init [ruyGame] true

def ruyAfterBb5 : ExplorerState :=
  advanceD (advanceD (advanceD (advanceD (advanceD ruyStart "e4") "e5") "Nf3") "Nc6") "Bb5"

def ruyAfterA6 : ExplorerState := advanceD ruyAfterBb5 "a6"

def ruyBack : ExplorerState := ruyAfterA6.backtrack

/-- A session on the one-move game. -/
def shortStart : ExplorerState := MoveExplorer.init [shortGame] true

def shortAfterE4 : ExplorerState := advanceD shortStart "e4"

/-- A session holding two games. -/
def demoStart : ExplorerState := MoveExplorer.init [demoGame, sicGame] true

/-! ### Basic lemmas about the tree operations -/

theorem MoveTree.children_node (c : List (String × MoveTree)) (w d l t : Nat)
    (s : List String) : (MoveTree.node c w d l t s).children = c := rfl

theorem MoveTree.total_node (c : List (String × MoveTree)) (w d l t : Nat)
    (s : List String) : (MoveTree.node c w d l t s).total = t := rfl

theorem MoveTree.stack_node (c : List (String × MoveTree)) (w d l t : Nat)
    (s : List String) : (MoveTree.node c w d l t s).stack = s := rfl

theorem bump_stack (r : String) (t : MoveTree) : (bump r t).stack = t.stack := by
  cases t
  simp only [bump]
  split
  · rfl
  · split <;> rfl

theorem bump_children (r : String) (t : MoveTree) : (bump r t).children = t.children := by
  cases t
  simp only [bump]
  split
  · rfl
  · split <;> rfl

theorem bump_total (r : String) (t : MoveTree) : (bump r t).total = t.total + 1 := by
  cases t
  simp only [bump]
  split
  · rfl
  · split <;> rfl

theorem build_stack (t : MoveTree) (G : List Game) :
    (t.build_next_level G).stack = t.stack := by
  cases t
  simp only [MoveTree.build_next_level]
  split <;> rfl

theorem build_total (t : MoveTree) (G : List Game) :
    (t.build_next_level G).total = t.total := by
  cases t
  simp only [MoveTree.build_next_level]
  split <;> rfl

theorem build_wins (t : MoveTree) (G : List Game) :
    (t.build_next_level G).wins = t.wins := by
  cases t
  simp only [MoveTree.build_next_level]
  split <;> rfl

theorem build_draws (t : MoveTree) (G : List Game) :
    (t.build_next_level G).draws = t.draws := by
  cases t
  simp only [MoveTree.build_next_level]
  split <;> rfl

theorem build_losses (t : MoveTree) (G : List Game) :
    (t.build_next_level G).losses = t.losses := by
  cases t
  simp only [MoveTree.build_next_level]
  split <;> rfl

theorem build_of_expanded (t : MoveTree) (G : List Game) (h : 0 < t.children.length) :
    t.build_next_level G = t := by
  cases t
  simp only [MoveTree.children] at h
  simp only [MoveTree.build_next_level]
  rw [if_pos h]

theorem build_children_of_fresh (t : MoveTree) (G : List Game) (h : t.children = []) :
    (t.build_next_level G).children = G.foldl (MoveTree.addGame t) [] := by
  cases t
  simp only [MoveTree.children] at h
  subst h
  simp only [MoveTree.build_next_level, List.length_nil, Nat.lt_irrefl, if_false]
  rfl

theorem lookup_mem {α β : Type} [BEq α] [LawfulBEq α] {l : List (α × β)} {k : α} {c : β}
    (h : l.lookup k = some c) : (k, c) ∈ l := by
  induction l with
  | nil => simp [List.lookup] at h
  | cons q qs ih =>
    obtain ⟨a, b⟩ := q
    rw [List.lookup] at h
    by_cases hq : k == a
    · rw [hq] at h
      simp only at h
      obtain rfl : b = c := by injection h
      obtain rfl : k = a := eq_of_beq hq
      exact List.mem_cons_self _ _
    · rw [Bool.not_eq_true] at hq
      rw [hq] at h
      simp only at h
      exact List.mem_cons_of_mem _ (ih h)

theorem lookup_none {α β : Type} [BEq α] [LawfulBEq α] {l : List (α × β)} {k : α}
    (h : l.lookup k = none) : k ∉ l.map Prod.fst := by
  induction l with
  | nil => simp
  | cons q qs ih =>
    obtain ⟨a, b⟩ := q
    rw [List.lookup] at h
    by_cases hq : k == a
    · rw [hq] at h; simp at h
    · rw [Bool.not_eq_true] at hq
      rw [hq] at h
      simp only at h
      simp only [List.map_cons, List.mem_cons]
      rintro (rfl | hh)
      · simp at hq
      · exact ih h hh

theorem updateChild_map_fst (ch : List (String × MoveTree)) (m : String)
    (f : MoveTree → MoveTree) :
    (updateChild ch m f).map Prod.fst = ch.map Prod.fst := by
  induction ch with
  | nil => rfl
  | cons p ps ih =>
    simp only [updateChild, List.map_cons] at *
    rw [show (if p.1 == m then (p.1, f p.2) else p).1 = p.1 from by split <;> rfl]
    rw [ih]

theorem updateChild_of_not_mem (ch : List (String × MoveTree)) (m : String)
    (f : MoveTree → MoveTree) (h : m ∉ ch.map Prod.fst) : updateChild ch m f = ch := by
  induction ch with
  | nil => rfl
  | cons p ps ih =>
    simp only [List.map_cons, List.mem_cons, not_or] at h
    simp only [updateChild, List.map_cons]
    rw [if_neg (by simp only [beq_iff_eq]; exact fun hh => h.1 hh.symm)]
    rw [show List.map (fun p => if p.1 == m then (p.1, f p.2) else p) ps = updateChild ps m f
      from rfl]
    rw [ih h.2]

theorem mem_updateChild {ch : List (String × MoveTree)} {m : String}
    {f : MoveTree → MoveTree} {p : String × MoveTree} (h : p ∈ updateChild ch m f) :
    (p ∈ ch ∧ (p.1 == m) = false) ∨ ∃ c, (m, c) ∈ ch ∧ p = (m, f c) := by
  unfold updateChild at h
  obtain ⟨q, hq, rfl⟩ := List.mem_map.1 h
  by_cases hqm : q.1 == m
  · right
    refine ⟨q.2, ?_, ?_⟩
    · have : q = (m, q.2) := by
        obtain ⟨q1, q2⟩ := q
        simp only at hqm ⊢
        exact congrArg (·, q2) (eq_of_beq hqm)
      rw [← this]; exact hq
    · rw [if_pos hqm]
      exact congrArg (·, f q.2) (eq_of_beq hqm)
  · left
    rw [Bool.not_eq_true] at hqm
    rw [if_neg (by simp [hqm])]
    exact ⟨hq, hqm⟩

theorem sumTotals_append (a b : List (String × MoveTree)) :
    sumTotals (a ++ b) = sumTotals a + sumTotals b := by
  simp [sumTotals]

theorem sumTotals_updateChild_bump (ch : List (String × MoveTree)) (m : String)
    (r : String) (c : MoveTree) (hnd : (ch.map Prod.fst).Nodup)
    (hm : ch.lookup m = some c) :
    sumTotals (updateChild ch m (bump r)) = sumTotals ch + 1 := by
  induction ch with
  | nil => simp [List.lookup] at hm
  | cons p ps ih =>
    obtain ⟨a, b⟩ := p
    simp only [List.map_cons, List.nodup_cons] at hnd
    rw [List.lookup] at hm
    by_cases hq : m == a
    · obtain rfl : m = a := eq_of_beq hq
      simp only [updateChild, List.map_cons]
      rw [if_pos (show ((m, b).1 == m) = true by simp)]
      rw [show List.map (fun p => if p.1 == m then (p.1, bump r p.2) else p) ps
        = updateChild ps m (bump r) from rfl]
      rw [updateChild_of_not_mem _ _ _ hnd.1]
      simp only [sumTotals, List.map_cons, List.sum_cons]
      rw [bump_total]
      omega
    · rw [Bool.not_eq_true] at hq
      rw [hq] at hm
      simp only at hm
      simp only [updateChild, List.map_cons]
      rw [if_neg (show ¬ (((a, b).1 == m) = true) by
        simp only [beq_iff_eq]
        exact fun hh => by simp [hh] at hq)]
      rw [show List.map (fun p => if p.1 == m then (p.1, bump r p.2) else p) ps
        = updateChild ps m (bump r) from rfl]
      have hih := ih hnd.2 hm
      simp only [sumTotals, List.map_cons, List.sum_cons] at hih ⊢
      omega

theorem take_snoc_iff {α : Type} (l pre : List α) (a : α) :
    l.take (pre.length + 1) = pre ++ [a] ↔
      l.take pre.length = pre ∧ l[pre.length]? = some a := by
  constructor
  · intro h
    have h1 : l.take pre.length = pre := by
      have h2 := congrArg (List.take pre.length) h
      rw [List.take_take] at h2
      rw [Nat.min_eq_left (Nat.le_succ _)] at h2
      rw [List.take_left] at h2
      exact h2
    refine ⟨h1, ?_⟩
    have h3 := List.take_succ (l := l) (n := pre.length)
    rw [h, h1] at h3
    have h4 : [a] = l[pre.length]?.toList := by
      have := List.append_cancel_left h3
      exact this
    cases hx : l[pre.length]? with
    | none => rw [hx] at h4; simp at h4
    | some b => rw [hx] at h4; simp only [Option.toList] at h4; injection h4 with h5; rw [h5]
  · rintro ⟨h1, h2⟩
    rw [List.take_succ, h1, h2]
    rfl

theorem take_eq_imp_le {α : Type} {l pre : List α} (h : l.take pre.length = pre) :
    pre.length ≤ l.length := by
  have := List.length_take pre.length l
  rw [h] at this
  omega

theorem gamesAt_snoc (all : List Game) (color : Bool) (st : List String) (k : String) :
    gamesAt all color (st ++ [k]) =
      (gamesAt all color st).filter (fun g => g.moves[st.length]? == some k) := by
  unfold gamesAt
  rw [List.filter_filter]
  apply List.filter_congr
  intro g _
  rw [show (st ++ [k]).length = st.length + 1 from by simp]
  rw [Bool.eq_iff_iff]
  simp only [Bool.and_eq_true, beq_iff_eq]
  rw [take_snoc_iff]
  tauto

/-! ### First-occurrence order -/

theorem firstOccs_le_aux :
    ∀ (n : Nat) (l : List String), l.length ≤ n →
      (∀ a : String, a ∈ firstOccs l ↔ a ∈ l) := by
  intro n
  induction n with
  | zero =>
    intro l h a
    obtain rfl : l = [] := List.length_eq_zero.1 (Nat.le_zero.1 h)
    rw [firstOccs]
  | succ n ih =>
    intro l h a
    cases l with
    | nil => rw [firstOccs]
    | cons m ms =>
      rw [firstOccs]
      simp only [List.mem_cons]
      have hlen : (ms.filter (fun k => !(k == m))).length ≤ n := by
        have := List.length_filter_le (fun k => !(k == m)) ms
        simp only [List.length_cons] at h
        omega
      rw [ih _ hlen a]
      simp only [List.mem_filter, Bool.not_eq_true', beq_eq_false_iff_ne]
      by_cases ham : a = m
      · subst ham; tauto
      · tauto

theorem mem_firstOccs {l : List String} {a : String} : a ∈ firstOccs l ↔ a ∈ l :=
  firstOccs_le_aux l.length l (Nat.le_refl _) a

theorem firstOccs_snoc_aux :
    ∀ (n : Nat) (l : List String), l.length ≤ n → ∀ a : String,
      firstOccs (l ++ [a]) = if a ∈ l then firstOccs l else firstOccs l ++ [a] := by
  intro n
  induction n with
  | zero =>
    intro l h a
    obtain rfl : l = [] := List.length_eq_zero.1 (Nat.le_zero.1 h)
    simp [firstOccs]
  | succ n ih =>
    intro l h a
    cases l with
    | nil => simp [firstOccs]
    | cons m ms =>
      simp only [List.cons_append]
      rw [firstOccs]
      rw [List.filter_append]
      have hlen : (ms.filter (fun k => !(k == m))).length ≤ n := by
        have := List.length_filter_le (fun k => !(k == m)) ms
        simp only [List.length_cons] at h
        omega
      by_cases ham : a = m
      · subst ham
        rw [show List.filter (fun k => !(k == a)) [a] = [] from by simp]
        rw [List.append_nil]
        rw [if_pos (List.mem_cons_self a ms)]
        rw [firstOccs]
      · rw [show List.filter (fun k => !(k == m)) [a] = [a] from by
          simp [beq_eq_false_iff_ne.2 ham]]
        rw [ih _ hlen a]
        have hmem : (a ∈ ms.filter (fun k => !(k == m))) ↔ a ∈ ms := by
          simp [List.mem_filter, beq_eq_false_iff_ne.2 ham]
        by_cases hams : a ∈ ms
        · rw [if_pos (hmem.2 hams)]
          rw [if_pos (by simp [hams])]
          rw [firstOccs]
        · rw [if_neg (fun hc => hams (hmem.1 hc))]
          rw [if_neg (by simp [ham, hams])]
          rw [firstOccs]
          simp

theorem firstOccs_snoc (l : List String) (a : String) :
    firstOccs (l ++ [a]) = if a ∈ l then firstOccs l else firstOccs l ++ [a] :=
  firstOccs_snoc_aux l.length l (Nat.le_refl _) a

/-! ### Characterization of `build_next_level` -/

theorem addGame_char (self : MoveTree) (g : Game) (G : List Game)
    (ch : List (String × MoveTree)) (h : ChildrenChar self G ch) :
    ChildrenChar self (G ++ [g]) (self.addGame ch g) := by
  obtain ⟨he, hp, hnd, hk, hs⟩ := h
  cases hmv : g.moves[self.stack.length]? with
  | none =>
    have heq : self.addGame ch g = ch := by
      unfold MoveTree.addGame
      rw [hmv]
    rw [heq]
    refine ⟨?_, hp, hnd, ?_, ?_⟩
    · intro p hpch
      obtain ⟨h1, h2, h3⟩ := he p hpch
      refine ⟨h1, h2, ?_⟩
      rw [h3]
      unfold childCount
      rw [List.filter_append]
      rw [show List.filter (fun g2 => g2.moves[self.stack.length]? == some p.1) [g] = []
        from by simp [hmv]]
      simp
    · rw [hk, List.filterMap_append]
      simp [hmv]
    · rw [hs, List.filter_append]
      simp [hmv]
  | some move =>
    cases hlk : ch.lookup move with
    | some c =>
      have heq : self.addGame ch g = updateChild ch move (bump g.user_result) := by
        unfold MoveTree.addGame
        rw [hmv]
        simp only [hlk]
      rw [heq]
      have hkeymem : move ∈ ch.map Prod.fst :=
        List.mem_map.2 ⟨(move, c), lookup_mem hlk, rfl⟩
      refine ⟨?_, ?_, ?_, ?_, ?_⟩
      · intro p hpch
        rcases mem_updateChild hpch with ⟨hpold, hpne⟩ | ⟨c0, hc0, rfl⟩
        · obtain ⟨h1, h2, h3⟩ := he p hpold
          refine ⟨h1, h2, ?_⟩
          rw [h3]
          unfold childCount
          rw [List.filter_append]
          rw [show List.filter (fun g2 => g2.moves[self.stack.length]? == some p.1) [g] = []
            from by
              simp only [List.filter_cons, List.filter_nil, hmv]
              rw [show (some move == some p.1) = false from by
                simp only [beq_eq_false_iff_ne]
                intro hc
                rw [beq_eq_false_iff_ne] at hpne
                exact hpne (by injection hc with hc2; rw [hc2])]
              rfl]
          simp
        · obtain ⟨h1, h2, h3⟩ := he (move, c0) hc0
          refine ⟨?_, ?_, ?_⟩
          · simp only [bump_stack]
            exact h1
          · simp only [bump_children]
            exact h2
          · simp only [bump_total]
            rw [h3]
            unfold childCount
            rw [List.filter_append]
            rw [show List.filter (fun g2 => g2.moves[self.stack.length]? == some move) [g] = [g]
              from by simp [hmv]]
            simp
      · intro p hpch
        rcases mem_updateChild hpch with ⟨hpold, _⟩ | ⟨c0, hc0, rfl⟩
        · exact hp p hpold
        · simp only [bump_total]
          omega
      · rw [updateChild_map_fst]
        exact hnd
      · rw [updateChild_map_fst, hk, List.filterMap_append]
        rw [show List.filterMap (fun g2 => g2.moves[self.stack.length]?) [g] = [move]
          from by simp [hmv]]
        rw [firstOccs_snoc]
        rw [if_pos (mem_firstOccs.1 (hk ▸ hkeymem))]
      · rw [sumTotals_updateChild_bump ch move g.user_result c hnd hlk]
        rw [hs, List.filter_append]
        simp [hmv]
    | none =>
      have heq : self.addGame ch g =
          ch ++ [(move, bump g.user_result (self.from_parent move))] := by
        unfold MoveTree.addGame
        rw [hmv]
        simp only [hlk]
      rw [heq]
      have hkeynot : move ∉ ch.map Prod.fst := lookup_none hlk
      have hGnot : ∀ g2 ∈ G, ¬ (g2.moves[self.stack.length]? == some move) = true := by
        intro g2 hg2 hc
        apply hkeynot
        rw [hk]
        exact mem_firstOccs.2 (List.mem_filterMap.2 ⟨g2, hg2, by
          rw [beq_iff_eq] at hc
          exact hc⟩)
      refine ⟨?_, ?_, ?_, ?_, ?_⟩
      · intro p hpch
        rcases List.mem_append.1 hpch with hpold | hnew
        · obtain ⟨h1, h2, h3⟩ := he p hpold
          refine ⟨h1, h2, ?_⟩
          rw [h3]
          unfold childCount
          rw [List.filter_append]
          rw [show List.filter (fun g2 => g2.moves[self.stack.length]? == some p.1) [g] = []
            from by
              simp only [List.filter_cons, List.filter_nil, hmv]
              rw [show (some move == some p.1) = false from by
                simp only [beq_eq_false_iff_ne]
                intro hc
                apply hkeynot
                injection hc with hc2
                rw [hc2]
                exact List.mem_map.2 ⟨p, hpold, rfl⟩]
              rfl]
          simp
        · obtain rfl : p = (move, bump g.user_result (self.from_parent move)) := by
            simpa using hnew
          refine ⟨?_, ?_, ?_⟩
          · simp only [bump_stack, MoveTree.from_parent, MoveTree.stack_node]
          · simp only [bump_children, MoveTree.from_parent, MoveTree.children_node]
          · simp only [bump_total, MoveTree.from_parent, MoveTree.total_node]
            unfold childCount
            rw [List.filter_append]
            rw [show List.filter (fun g2 => g2.moves[self.stack.length]? == some move) G = []
              from List.filter_eq_nil_iff.2 hGnot]
            rw [show List.filter (fun g2 => g2.moves[self.stack.length]? == some move) [g] = [g]
              from by simp [hmv]]
            rfl
      · intro p hpch
        rcases List.mem_append.1 hpch with hpold | hnew
        · exact hp p hpold
        · obtain rfl : p = (move, bump g.user_result (self.from_parent move)) := by
            simpa using hnew
          simp only [bump_total, MoveTree.from_parent, MoveTree.total_node]
          omega
      · rw [List.map_append]
        simp only [List.map_cons, List.map_nil]
        rw [List.nodup_append]
        refine ⟨hnd, List.nodup_singleton _, ?_⟩
        intro a ha hb
        simp only [List.mem_singleton] at hb
        subst hb
        exact hkeynot ha
      · rw [List.map_append, hk, List.filterMap_append]
        rw [show List.filterMap (fun g2 => g2.moves[self.stack.length]?) [g] = [move]
          from by simp [hmv]]
        rw [firstOccs_snoc]
        rw [if_neg (fun hc => hkeynot (hk ▸ mem_firstOccs.2 hc))]
        rfl
      · rw [sumTotals_append, hs, List.filter_append]
        rw [show List.filter (fun g2 => (g2.moves[self.stack.length]?).isSome) [g] = [g]
          from by simp [hmv]]
        simp only [sumTotals, List.map_cons, List.map_nil, List.sum_cons, List.sum_nil,
          bump_total, MoveTree.from_parent, MoveTree.total_node, List.length_append]
        rfl

theorem foldl_addGame_char (self : MoveTree) :
    ∀ (G prev : List Game) (ch : List (String × MoveTree)),
      ChildrenChar self prev ch →
      ChildrenChar self (prev ++ G) (G.foldl (MoveTree.addGame self) ch) := by
  intro G
  induction G with
  | nil =>
    intro prev ch h
    simpa using h
  | cons g G ih =>
    intro prev ch h
    rw [List.foldl_cons]
    have h2 := ih (prev ++ [g]) (self.addGame ch g) (addGame_char self g prev ch h)
    rw [List.append_assoc] at h2
    simpa using h2

theorem childrenChar_nil (self : MoveTree) : ChildrenChar self [] [] := by
  refine ⟨?_, ?_, ?_, ?_, ?_⟩
  · intro p hp
    simp at hp
  · intro p hp
    simp at hp
  · simp
  · simp [firstOccs]
  · simp [sumTotals]

theorem build_children_char (t : MoveTree) (G : List Game) (h : t.children = []) :
    ChildrenChar t G (t.build_next_level G).children := by
  rw [build_children_of_fresh t G h]
  have h2 := foldl_addGame_char t G [] [] (childrenChar_nil t)
  simpa using h2

/-! ### The stable descending sort of `available_moves` -/

theorem insertByTotal_decomp (p : String × MoveTree) (l : List (String × MoveTree)) :
    ∃ l₁ l₂, insertByTotal p l = l₁ ++ p :: l₂ ∧ l = l₁ ++ l₂ ∧
      ∀ q ∈ l₁, p.2.total < q.2.total := by
  induction l with
  | nil => exact ⟨[], [], rfl, rfl, by simp⟩
  | cons q qs ih =>
    by_cases h : q.2.total ≤ p.2.total
    · exact ⟨[], q :: qs, by simp [insertByTotal, h], rfl, by simp⟩
    · obtain ⟨l₁, l₂, h1, h2, h3⟩ := ih
      refine ⟨q :: l₁, l₂, ?_, ?_, ?_⟩
      · simp only [insertByTotal, if_neg h, h1, List.cons_append]
      · simp only [h2, List.cons_append]
      · intro r hr
        rcases List.mem_cons.1 hr with rfl | hr2
        · omega
        · exact h3 r hr2

theorem sortByTotalDesc_perm (l : List (String × MoveTree)) :
    List.Perm (sortByTotalDesc l) l := by
  induction l with
  | nil => exact List.Perm.refl _
  | cons p ps ih =>
    obtain ⟨l₁, l₂, h1, h2, _⟩ := insertByTotal_decomp p (sortByTotalDesc ps)
    rw [show sortByTotalDesc (p :: ps) = insertByTotal p (sortByTotalDesc ps) from rfl, h1]
    refine List.Perm.trans List.perm_middle ?_
    rw [← h2]
    exact ih.cons p

theorem mem_sortByTotalDesc {l : List (String × MoveTree)} {q : String × MoveTree} :
    q ∈ sortByTotalDesc l ↔ q ∈ l :=
  (sortByTotalDesc_perm l).mem_iff

theorem filter_insertByTotal_of_eq {p : String × MoveTree} {t : Nat}
    (l : List (String × MoveTree)) (hp : (p.2.total == t) = true) :
    (insertByTotal p l).filter (fun q => q.2.total == t) =
      p :: l.filter (fun q => q.2.total == t) := by
  obtain ⟨l₁, l₂, h1, h2, h3⟩ := insertByTotal_decomp p l
  rw [h1, h2, List.filter_append, List.filter_append, List.filter_cons]
  rw [show l₁.filter (fun q => q.2.total == t) = [] from List.filter_eq_nil_iff.2
    (fun q hq => by
      have h4 := h3 q hq
      simp only [beq_iff_eq] at hp ⊢
      omega)]
  simp [hp]

theorem filter_insertByTotal_of_ne {p : String × MoveTree} {t : Nat}
    (l : List (String × MoveTree)) (hp : (p.2.total == t) = false) :
    (insertByTotal p l).filter (fun q => q.2.total == t) =
      l.filter (fun q => q.2.total == t) := by
  obtain ⟨l₁, l₂, h1, h2, _⟩ := insertByTotal_decomp p l
  rw [h1, h2, List.filter_append, List.filter_append, List.filter_cons]
  simp [hp]

theorem sortByTotalDesc_stable (l : List (String × MoveTree)) (t : Nat) :
    (sortByTotalDesc l).filter (fun q => q.2.total == t) =
      l.filter (fun q => q.2.total == t) := by
  induction l with
  | nil => rfl
  | cons p ps ih =>
    rw [show sortByTotalDesc (p :: ps) = insertByTotal p (sortByTotalDesc ps) from rfl]
    by_cases hp : (p.2.total == t) = true
    · rw [filter_insertByTotal_of_eq _ hp, ih, List.filter_cons, hp]
      rw [if_pos rfl]
    · rw [Bool.not_eq_true] at hp
      rw [filter_insertByTotal_of_ne _ hp, ih, List.filter_cons, hp]
      rw [if_neg (by simp)]

theorem pairwise_insertByTotal {p : String × MoveTree} {l : List (String × MoveTree)}
    (h : List.Pairwise (fun a b => b.2.total ≤ a.2.total) l) :
    List.Pairwise (fun a b => b.2.total ≤ a.2.total) (insertByTotal p l) := by
  induction l with
  | nil => simp [insertByTotal]
  | cons q qs ih =>
    rw [List.pairwise_cons] at h
    obtain ⟨hq, hqs⟩ := h
    by_cases hc : q.2.total ≤ p.2.total
    · rw [show insertByTotal p (q :: qs) = p :: q :: qs from by simp [insertByTotal, hc]]
      rw [List.pairwise_cons]
      refine ⟨?_, List.pairwise_cons.2 ⟨hq, hqs⟩⟩
      intro r hr
      rcases List.mem_cons.1 hr with rfl | hr2
      · exact hc
      · exact le_trans (hq r hr2) hc
    · rw [show insertByTotal p (q :: qs) = q :: insertByTotal p qs from by
        simp [insertByTotal, hc]]
      rw [List.pairwise_cons]
      refine ⟨?_, ih hqs⟩
      intro r hr
      obtain ⟨l₁, l₂, h1, h2, _⟩ := insertByTotal_decomp p qs
      rw [h1] at hr
      rcases List.mem_cons.1 (List.perm_middle.mem_iff.1 hr) with rfl | hr2
      · omega
      · exact hq r (h2 ▸ hr2)

theorem sortByTotalDesc_pairwise (l : List (String × MoveTree)) :
    List.Pairwise (fun a b => b.2.total ≤ a.2.total) (sortByTotalDesc l) := by
  induction l with
  | nil => simp [sortByTotalDesc]
  | cons p ps ih => exact pairwise_insertByTotal ih

/-! ### Well-formedness of built trees and the explorer invariant -/

theorem treeWF_leaf (all : List Game) (color : Bool) (t : MoveTree)
    (h : t.children = []) : TreeWF all color t := by
  refine TreeWF.node t ?_ ?_ <;> intro p hp <;> rw [h] at hp <;> simp at hp

theorem treeWF_child_facts {all : List Game} {color : Bool} {t : MoveTree}
    (h : TreeWF all color t) {p : String × MoveTree} (hp : p ∈ t.children) :
    p.2.stack = t.stack ++ [p.1] ∧ p.2.total = (gamesAt all color p.2.stack).length ∧
      1 ≤ p.2.total ∧ TreeWF all color p.2 := by
  cases h with
  | node t h1 h2 => exact ⟨(h1 p hp).1, (h1 p hp).2.1, (h1 p hp).2.2, h2 p hp⟩

theorem childCount_gamesAt (all : List Game) (color : Bool) (st : List String)
    (k : String) :
    childCount st.length (gamesAt all color st) k = (gamesAt all color (st ++ [k])).length := by
  rw [gamesAt_snoc]
  rfl

theorem treeWF_build (all : List Game) (color : Bool) (t : MoveTree) (G : List Game)
    (ht : t.children = []) (hG : G = gamesAt all color t.stack) :
    TreeWF all color (t.build_next_level G) := by
  have hc := build_children_char t G ht
  obtain ⟨he, hp, _, _, _⟩ := hc
  refine TreeWF.node _ ?_ ?_
  · intro p hpch
    obtain ⟨h1, _, h3⟩ := he p hpch
    refine ⟨?_, ?_, hp p hpch⟩
    · rw [build_stack]
      exact h1
    · rw [h3, hG, childCount_gamesAt, h1]
  · intro p hpch
    obtain ⟨_, h2, _⟩ := he p hpch
    exact treeWF_leaf _ _ _ h2

theorem advanceE_error (s : ExplorerState) (move : String)
    (hl : s.tree.children.lookup move = none) : s.advanceE move = Except.error s := by
  unfold ExplorerState.advanceE
  rw [hl]

theorem advanceE_ok (s : ExplorerState) (move : String) (child : MoveTree)
    (hl : s.tree.children.lookup move = some child) :
    s.advanceE move = Except.ok
      { s with
        tree := child.build_next_level (s.games.filter
          (fun g => g.moves.take child.stack.length == child.stack)),
        ctx := (move, s.tree) :: s.ctx,
        games := s.games.filter (fun g => g.moves.take child.stack.length == child.stack),
        opening := match OPENING_NAMES.lookup child.stack with
          | some name => some name
          | none => s.opening,
        opening_ply := if (OPENING_NAMES.lookup child.stack).isSome then child.stack.length
          else s.opening_ply } := by
  unfold ExplorerState.advanceE
  rw [hl]

theorem backtrack_nil (s : ExplorerState) (h : s.ctx = []) : s.backtrack = s := by
  unfold ExplorerState.backtrack
  rw [h]

theorem backtrack_cons (s : ExplorerState) (move : String) (parent : MoveTree)
    (rest : List (String × MoveTree)) (h : s.ctx = (move, parent) :: rest) :
    s.backtrack =
      { s with
        tree := plugChild parent move s.tree,
        ctx := rest,
        games := (s.all_games.filter
          (fun g => g.moves.take (plugChild parent move s.tree).stack.length ==
            (plugChild parent move s.tree).stack)).filter
          (fun g => g.user_color == s.color),
        opening :=
          if (plugChild parent move s.tree).stack.length ≤ s.opening_ply then
            OPENING_NAMES.lookup (plugChild parent move s.tree).stack
          else s.opening,
        opening_ply :=
          if (plugChild parent move s.tree).stack.length ≤ s.opening_ply then
            if (OPENING_NAMES.lookup (plugChild parent move s.tree).stack).isSome then
              s.opening_ply
            else 0
          else s.opening_ply } := by
  unfold ExplorerState.backtrack
  rw [h]

theorem plugChild_stack (parent : MoveTree) (move : String) (c : MoveTree) :
    (plugChild parent move c).stack = parent.stack := rfl

theorem plugChild_total (parent : MoveTree) (move : String) (c : MoveTree) :
    (plugChild parent move c).total = parent.total := rfl

theorem plugChild_children (parent : MoveTree) (move : String) (c : MoveTree) :
    (plugChild parent move c).children = updateChild parent.children move (fun _ => c) := rfl

theorem treeWF_plug {all : List Game} {color : Bool} {parent focus : MoveTree}
    {move : String} (hp : TreeWF all color parent) (hf : TreeWF all color focus)
    (hstk : focus.stack = parent.stack ++ [move])
    (htot : focus.total = (gamesAt all color focus.stack).length)
    (hpos : 1 ≤ focus.total) :
    TreeWF all color (plugChild parent move focus) := by
  refine TreeWF.node _ ?_ ?_
  · intro p hpch
    rw [plugChild_children] at hpch
    rcases mem_updateChild hpch with ⟨hpold, _⟩ | ⟨c0, hc0, rfl⟩
    · obtain ⟨h1, h2, h3, _⟩ := treeWF_child_facts hp hpold
      exact ⟨by rw [plugChild_stack]; exact h1, h2, h3⟩
    · refine ⟨?_, ?_, ?_⟩
      · rw [plugChild_stack]
        exact hstk
      · exact htot
      · exact hpos
  · intro p hpch
    rw [plugChild_children] at hpch
    rcases mem_updateChild hpch with ⟨hpold, _⟩ | ⟨c0, hc0, rfl⟩
    · exact (treeWF_child_facts hp hpold).2.2.2
    · exact hf

theorem gamesAt_nil_stack (all : List Game) (color : Bool) :
    all.filter (fun g => g.user_color == color) = gamesAt all color [] := by
  unfold gamesAt
  apply List.filter_congr
  intro g _
  simp

theorem inv_reset (s : ExplorerState) (c : Bool) : ExplorerInv (s.reset c) := by
  refine ⟨?_, ?_, ?_⟩
  · show s.all_games.filter (fun g => g.user_color == c) =
      gamesAt s.all_games c (emptyTree.build_next_level
        (s.all_games.filter (fun g => g.user_color == c))).stack
    rw [build_stack]
    exact gamesAt_nil_stack _ _
  · show TreeWF s.all_games c (emptyTree.build_next_level
      (s.all_games.filter (fun g => g.user_color == c)))
    exact treeWF_build _ _ _ _ rfl (gamesAt_nil_stack _ _)
  · show CtxChain s.all_games c _ _ []
    rw [CtxChain]
    trivial

theorem advance_games_eq {s : ExplorerState} (hinv : ExplorerInv s) {move : String}
    {child : MoveTree} (hl : s.tree.children.lookup move = some child) :
    s.games.filter (fun g => g.moves.take child.stack.length == child.stack) =
      gamesAt s.all_games s.color child.stack := by
  obtain ⟨hstk, _, _, _⟩ := treeWF_child_facts hinv.tree_wf (lookup_mem hl)
  rw [hinv.games_eq, hstk, gamesAt_snoc]
  apply List.filter_congr
  intro g hg
  have hgst : g.moves.take s.tree.stack.length = s.tree.stack := by
    unfold gamesAt at hg
    have h2 := (List.mem_filter.1 hg).2
    rw [Bool.and_eq_true] at h2
    exact beq_iff_eq.1 h2.2
  rw [show (s.tree.stack ++ [move]).length = s.tree.stack.length + 1 from by simp]
  rw [Bool.eq_iff_iff]
  simp only [beq_iff_eq]
  rw [take_snoc_iff]
  constructor
  · intro hh
    exact hh.2
  · intro hh
    exact ⟨hgst, hh⟩

theorem inv_advance {s : ExplorerState} {move : String} {s' : ExplorerState}
    (hinv : ExplorerInv s) (h : s.advanceE move = Except.ok s') : ExplorerInv s' := by
  cases hl : s.tree.children.lookup move with
  | none =>
    rw [advanceE_error s move hl] at h
    exact absurd h (by simp)
  | some child =>
    rw [advanceE_ok s move child hl] at h
    injection h with h2
    subst h2
    obtain ⟨hstk, htot, hpos, hwf⟩ := treeWF_child_facts hinv.tree_wf (lookup_mem hl)
    have hge := advance_games_eq hinv hl
    refine ⟨?_, ?_, ?_⟩
    · show s.games.filter _ = gamesAt s.all_games s.color
        (child.build_next_level _).stack
      rw [build_stack]
      exact hge
    · show TreeWF s.all_games s.color (child.build_next_level _)
      by_cases hch : child.children = []
      · exact treeWF_build _ _ _ _ hch hge
      · rw [build_of_expanded child _ (List.length_pos.2 hch)]
        exact hwf
    · show CtxChain s.all_games s.color (child.build_next_level _).stack
        (child.build_next_level _).total ((move, s.tree) :: s.ctx)
      rw [CtxChain, build_stack, build_total]
      exact ⟨hstk, by rw [htot], hpos, hinv.tree_wf, hinv.chain⟩

theorem inv_backtrack {s : ExplorerState} (hinv : ExplorerInv s) :
    ExplorerInv s.backtrack := by
  cases hctx : s.ctx with
  | nil =>
    rw [backtrack_nil s hctx]
    exact hinv
  | cons q rest =>
    obtain ⟨move, parent⟩ := q
    rw [backtrack_cons s move parent rest hctx]
    have hch := hinv.chain
    rw [hctx, CtxChain] at hch
    obtain ⟨hstk, htot, hpos, hpwf, hrest⟩ := hch
    refine ⟨?_, ?_, ?_⟩
    · show (s.all_games.filter _).filter _ = gamesAt s.all_games s.color _
      rw [List.filter_filter]
      unfold gamesAt
      apply List.filter_congr
      intro g _
      rw [Bool.eq_iff_iff]
    · show TreeWF s.all_games s.color (plugChild parent move s.tree)
      exact treeWF_plug hpwf hinv.tree_wf hstk (by rw [htot]) hpos
    · show CtxChain s.all_games s.color (plugChild parent move s.tree).stack
        (plugChild parent move s.tree).total rest
      rw [plugChild_stack, plugChild_total]
      exact hrest

theorem inv_of_reachable {s : ExplorerState} (h : Reachable s) : ExplorerInv s := by
  induction h with
  | init all color => exact inv_reset _ _
  | reset s color _ _ => exact inv_reset _ _
  | advance s move s' _ hadv ih => exact inv_advance ih hadv
  | backtrack s _ ih => exact inv_backtrack ih

theorem allChildrenPos_of_treeWF {all : List Game} {color : Bool} {t : MoveTree}
    (h : TreeWF all color t) : AllChildrenPos t := by
  induction h with
  | node t h1 h2 ih => exact AllChildrenPos.node t (fun p hp => (h1 p hp).2.2) ih

/-! ### The claims -/

/-- C2 (amended): `build_next_level` is a no-op on a node that already has at
least one child — the code infers "already expanded" from a non-empty
children mapping, so idempotence holds exactly when the completed expansion
produced a child. -/
theorem c2_expand_noop_when_children_nonempty (t : MoveTree) (G : List Game)
    (h : 0 < t.children.length) : t.build_next_level G = t :=
  build_of_expanded t G h

/-- C2 witness: a node expanded with one game has a child, and re-expanding it
with a different (empty) game list changes nothing. -/
theorem c2_expand_noop_witness :
    0 < (emptyTree.build_next_level [demoGame]).children.length ∧
      (emptyTree.build_next_level [demoGame]).build_next_level [] =
        emptyTree.build_next_level [demoGame] :=
  ⟨by decide, c2_expand_noop_when_children_nonempty _ _ (by decide)⟩

/-- C2 counterexample: a node whose expansion (with an empty game list)
completed with zero children is re-expanded by a later call with a different
game list, which creates a child — the second call is not a no-op. -/
theorem c2_counterexample :
    (MoveTree.build_next_level emptyTree []).children = [] ∧
      ((MoveTree.build_next_level emptyTree []).build_next_level
        [demoGame]).children.map Prod.fst = ["e4"] :=
  ⟨rfl, rfl⟩

/-- C6: `advance` with a move absent from the current children fails
(raising before any field assignment), leaving every component of the
explorer state unchanged — the REPL continues with the identical state. -/
theorem c6_invalid_move_atomic (s : ExplorerState) (move : String)
    (h : s.tree.children.lookup move = none) :
    s.advanceE move = Except.error s ∧ advanceD s move = s := by
  have he := advanceE_error s move h
  refine ⟨he, ?_⟩
  unfold advanceD
  rw [he]

/-- C6 witness: advancing by `d4` from a session whose games all open `e4`. -/
theorem c6_invalid_move_witness :
    demoStart.advanceE "d4" = Except.error demoStart ∧
      advanceD demoStart "d4" = demoStart :=
  c6_invalid_move_atomic demoStart "d4" rfl

/-- C8 (amended): for a node that has not been expanded yet (no children),
after expansion with `games` the children's totals sum to at most
`games.length`, with equality exactly when every game has a move beyond the
node's depth.  (For an already-expanded node the call is a no-op and the sum
reflects the earlier game list instead.) -/
theorem c8_sum_child_totals (t : MoveTree) (G : List Game) (h : t.children = []) :
    sumTotals (t.build_next_level G).children ≤ G.length ∧
      (sumTotals (t.build_next_level G).children = G.length ↔
        ∀ g ∈ G, t.stack.length < g.moves.length) := by
  obtain ⟨_, _, _, _, hs⟩ := build_children_char t G h
  rw [hs]
  have hiff : ∀ g : Game,
      ((g.moves[t.stack.length]?).isSome = true) ↔ t.stack.length < g.moves.length := by
    intro g
    cases hx : g.moves[t.stack.length]? with
    | none =>
      have hle := List.getElem?_eq_none_iff.1 hx
      simp only [Option.isSome_none, Bool.false_eq_true, false_iff]
      omega
    | some a =>
      have hlt : t.stack.length < g.moves.length := by
        by_contra hc
        rw [List.getElem?_eq_none_iff.2 (by omega)] at hx
        exact absurd hx (by simp)
      simp only [Option.isSome_some, true_iff]
      exact hlt
  refine ⟨List.length_filter_le _ _, ?_⟩
  rw [List.filter_length_eq_length]
  constructor
  · intro hall g hg
    exact (hiff g).1 (hall g hg)
  · intro hall g hg
    exact (hiff g).2 (hall g hg)

/-- C8 witness: expanding a fresh root with two games. -/
theorem c8_sum_child_totals_witness :
    sumTotals (emptyTree.build_next_level [demoGame, shortGame]).children ≤
      ([demoGame, shortGame] : List Game).length :=
  (c8_sum_child_totals emptyTree [demoGame, shortGame] rfl).1

/-- C8 counterexample: re-calling expand on an already expanded node with a
shorter game list leaves the old sums, violating the bound for the new list. -/
theorem c8_counterexample :
    ¬ sumTotals ((MoveTree.build_next_level (MoveTree.build_next_level emptyTree
      [demoGame]) []).children) ≤ ([] : List Game).length := by
  decide

/-- C4: the claim that `back n` terminates (stopping at the root as a no-op)
fails on the code: at the root the REPL loop condition
`len(stack) + 1 != moveno * 2` never becomes true for `back 1`, and
`backtrack` is a no-op there, so the loop never exits regardless of fuel. -/
theorem c4_back_loop_diverges_at_root (fuel : Nat) :
    backLoop fuel 1 (MoveExplorer.init [] true) = none := by
  have hroot : (MoveExplorer.init [] true).backtrack = MoveExplorer.init [] true :=
    backtrack_nil _ rfl
  induction fuel with
  | zero => rfl
  | succ n ih =>
    rw [backLoop]
    rw [if_neg (by decide)]
    rw [hroot]
    exact ih

/-- C9: in every reachable explorer state every node stored in a children
mapping of the current tree has a positive total, and in particular the
per-move rate computations of `print_stats`, which divide by the totals
listed by `available_moves`, never divide by zero. -/
theorem c9_child_totals_positive (s : ExplorerState) (h : Reachable s) :
    AllChildrenPos s.tree ∧ ∀ p ∈ s.available_moves, p.2.total ≠ 0 := by
  have hinv := inv_of_reachable h
  refine ⟨allChildrenPos_of_treeWF hinv.tree_wf, ?_⟩
  intro p hp
  unfold ExplorerState.available_moves at hp
  have hp2 : p ∈ s.tree.children := mem_sortByTotalDesc.1 hp
  have h3 := (treeWF_child_facts hinv.tree_wf hp2).2.2.1
  omega

/-- C9 witness: a freshly initialised session. -/
theorem c9_child_totals_positive_witness :
    AllChildrenPos (MoveExplorer.init [demoGame] true).tree :=
  (c9_child_totals_positive _ (Reachable.init [demoGame] true)).1

/-- C10: `available_moves` is the stable descending sort of the children
mapping by total — the output is sorted by total descending, entries of equal
total keep the children mapping's insertion order, and for a freshly expanded
node that insertion order is the order in which the moves first occurred in
the game list passed to the expansion. -/
theorem c10_available_moves_order :
    (∀ s : ExplorerState,
        List.Pairwise (fun p q => q.2.total ≤ p.2.total) s.available_moves) ∧
      (∀ (s : ExplorerState) (t : Nat),
        s.available_moves.filter (fun p => p.2.total == t) =
          s.tree.children.filter (fun p => p.2.total == t)) ∧
      (∀ (t : MoveTree) (G : List Game), t.children = [] →
        (t.build_next_level G).children.map Prod.fst =
          firstOccs (G.filterMap (fun g => g.moves[t.stack.length]?))) := by
  refine ⟨?_, ?_, ?_⟩
  · intro s
    exact sortByTotalDesc_pairwise _
  · intro s t
    exact sortByTotalDesc_stable _ _
  · intro t G h
    obtain ⟨_, _, _, hk, _⟩ := build_children_char t G h
    exact hk

/-- C10 witness: insertion order of a fresh root expanded with three games. -/
theorem c10_available_moves_order_witness :
    (emptyTree.build_next_level [demoGame, sicGame, shortGame]).children.map Prod.fst =
      firstOccs ([demoGame, sicGame, shortGame].filterMap
        (fun g => g.moves[emptyTree.stack.length]?)) :=
  c10_available_moves_order.2.2 emptyTree [demoGame, sicGame, shortGame] rfl

/-- C1 (amended): after a successful `advance`, the current node's total
equals the full size of the game set passed to its expansion — equivalently
the number of games whose move list has length at least (not strictly greater
than) the node's depth, since every game in that set matches the node's
stack; and the root created by `reset` keeps total 0 (expansion never touches
a node's own counters). -/
theorem c1_total_counts :
    (∀ (s : ExplorerState) (move : String) (s' : ExplorerState), Reachable s →
        s.advanceE move = Except.ok s' →
        s'.tree.total = s'.games.length ∧
          ∀ g ∈ s'.games, s'.tree.stack.length ≤ g.moves.length) ∧
      ∀ (s : ExplorerState) (c : Bool), (s.reset c).tree.total = 0 := by
  constructor
  · intro s move s' hr hadv
    have hinv := inv_of_reachable hr
    cases hl : s.tree.children.lookup move with
    | none =>
      rw [advanceE_error s move hl] at hadv
      exact absurd hadv (by simp)
    | some child =>
      rw [advanceE_ok s move child hl] at hadv
      injection hadv with h2
      obtain ⟨_, htot, _, _⟩ := treeWF_child_facts hinv.tree_wf (lookup_mem hl)
      have hge := advance_games_eq hinv hl
      have htree : s'.tree = child.build_next_level
          (s.games.filter (fun g => g.moves.take child.stack.length == child.stack)) := by
        rw [← h2]
      have hgames : s'.games =
          s.games.filter (fun g => g.moves.take child.stack.length == child.stack) := by
        rw [← h2]
      constructor
      · rw [htree, hgames, build_total, htot, hge]
      · intro g hg
        rw [htree, build_stack]
        rw [hgames, hge] at hg
        unfold gamesAt at hg
        have h3 := (List.mem_filter.1 hg).2
        rw [Bool.and_eq_true] at h3
        exact take_eq_imp_le (beq_iff_eq.1 h3.2)
  · intro s c
    show (emptyTree.build_next_level _).total = 0
    rw [build_total]
    rfl

/-- C1 witness: one advance from a fresh session with one game. -/
theorem c1_total_counts_witness :
    shortAfterE4.tree.total = shortAfterE4.games.length :=
  (c1_total_counts.1 shortStart "e4" shortAfterE4 (Reachable.init [shortGame] true) rfl).1

/-- C1 counterexample: with the single game `[e4]`, advancing to `e4` gives a
node of total 1 whose expansion received one game, but no game in that set
has a move list strictly longer than the node's depth 1 — total (1) differs
from the count (0) demanded by the claim's strict inequality. -/
theorem c1_counterexample :
    shortAfterE4.tree.total = 1 ∧
      (shortAfterE4.games.filter
        (fun g => decide (shortAfterE4.tree.stack.length < g.moves.length))).length = 0 :=
  ⟨rfl, rfl⟩

/-- C3 (amended): on every successful `advance` the catalog lookup is always
performed, whether or not a label is already set: an exact match for the new
stack overwrites `opening` and sets `opening_ply` to the new depth (so a
deeper exact match re-assigns both), while on a miss both fields keep their
previous values. -/
theorem c3_advance_lookup_policy (s : ExplorerState) (move : String)
    (s' : ExplorerState) (h : s.advanceE move = Except.ok s') :
    s'.opening = (match OPENING_NAMES.lookup s'.tree.stack with
      | some name => some name
      | none => s.opening) ∧
      s'.opening_ply = if (OPENING_NAMES.lookup s'.tree.stack).isSome then
        s'.tree.stack.length else s.opening_ply := by
  cases hl : s.tree.children.lookup move with
  | none =>
    rw [advanceE_error s move hl] at h
    exact absurd h (by simp)
  | some child =>
    rw [advanceE_ok s move child hl] at h
    injection h with h2
    have hstk : s'.tree.stack = child.stack := by
      rw [← h2, build_stack]
    have hop : s'.opening = (match OPENING_NAMES.lookup child.stack with
        | some name => some name
        | none => s.opening) := by
      rw [← h2]
    have hply : s'.opening_ply = (if (OPENING_NAMES.lookup child.stack).isSome then
        child.stack.length else s.opening_ply) := by
      rw [← h2]
    rw [hstk, hop, hply]
    exact ⟨rfl, rfl⟩

/-- C3 witness: the fourth advance of the Old Sicilian session. -/
theorem c3_advance_lookup_policy_witness :
    sicAfterNc6.opening = (match OPENING_NAMES.lookup sicAfterNc6.tree.stack with
      | some name => some name
      | none => sicAfterNf3.opening) ∧
      sicAfterNc6.opening_ply = if (OPENING_NAMES.lookup sicAfterNc6.tree.stack).isSome then
        sicAfterNc6.tree.stack.length else sicAfterNf3.opening_ply :=
  c3_advance_lookup_policy sicAfterNf3 "Nc6" sicAfterNc6 rfl

/-- C3 counterexample: after `e4 c5` the label is "Sicilian Defense" at ply 2,
yet the later deeper exact match `e4 c5 Nf3 Nc6` re-assigns the label to
"Old Sicilian" and `opening_ply` to 4 — the lookup is not skipped once a
label is set, and the first label does not persist. -/
theorem c3_counterexample :
    sicAfterC5.opening = some "Sicilian Defense" ∧ sicAfterC5.opening_ply = 2 ∧
      sicAfterNc6.opening = some "Old Sicilian" ∧ sicAfterNc6.opening_ply = 4 :=
  ⟨rfl, rfl, rfl, rfl⟩

/-- C5 (amended): `opening_ply = 0` whenever `opening` is unset, in every
reachable state; a successful `advance` lookup sets `opening_ply` to the new
depth; but a backtrack whose exact re-lookup at the landing path succeeds
re-assigns the label while leaving `opening_ply` at its previous, deeper
value (it is not updated to the landing depth). -/
theorem c5_opening_ply_policy :
    (∀ s : ExplorerState, Reachable s → s.opening = none → s.opening_ply = 0) ∧
      (∀ (s : ExplorerState) (move : String) (s' : ExplorerState),
        s.advanceE move = Except.ok s' →
        (OPENING_NAMES.lookup s'.tree.stack).isSome = true →
          s'.opening = OPENING_NAMES.lookup s'.tree.stack ∧
            s'.opening_ply = s'.tree.stack.length) ∧
      (∀ s : ExplorerState, s.ctx ≠ [] →
        s.backtrack.tree.stack.length ≤ s.opening_ply →
        (OPENING_NAMES.lookup s.backtrack.tree.stack).isSome = true →
          s.backtrack.opening = OPENING_NAMES.lookup s.backtrack.tree.stack ∧
            s.backtrack.opening_ply = s.opening_ply) := by
  refine ⟨?_, ?_, ?_⟩
  · intro s hr
    induction hr with
    | init all color => intro _; rfl
    | reset s color _ _ => intro _; rfl
    | advance s move s' _ hadv ih =>
      cases hl : s.tree.children.lookup move with
      | none =>
        rw [advanceE_error s move hl] at hadv
        exact absurd hadv (by simp)
      | some child =>
        rw [advanceE_ok s move child hl] at hadv
        injection hadv with h2
        have hop : s'.opening = (match OPENING_NAMES.lookup child.stack with
            | some name => some name
            | none => s.opening) := by
          rw [← h2]
        have hply : s'.opening_ply = (if (OPENING_NAMES.lookup child.stack).isSome then
            child.stack.length else s.opening_ply) := by
          rw [← h2]
        intro hnone
        rw [hop] at hnone
        rw [hply]
        cases hcat : OPENING_NAMES.lookup child.stack with
        | some name =>
          rw [hcat] at hnone
          simp at hnone
        | none =>
          rw [hcat] at hnone
          have hnone2 : s.opening = none := hnone
          simp only [Option.isSome_none, Bool.false_eq_true, if_false]
          exact ih hnone2
    | backtrack s _ ih =>
      cases hctx : s.ctx with
      | nil =>
        rw [backtrack_nil s hctx]
        exact ih
      | cons q rest =>
        obtain ⟨move, parent⟩ := q
        rw [backtrack_cons s move parent rest hctx]
        intro hnone
        by_cases hcond : (plugChild parent move s.tree).stack.length ≤ s.opening_ply
        · rw [show ({ s with
              tree := plugChild parent move s.tree,
              ctx := rest,
              games := _,
              opening := if (plugChild parent move s.tree).stack.length ≤ s.opening_ply
                then OPENING_NAMES.lookup (plugChild parent move s.tree).stack else s.opening,
              opening_ply := if (plugChild parent move s.tree).stack.length ≤ s.opening_ply
                then (if (OPENING_NAMES.lookup (plugChild parent move s.tree).stack).isSome
                  then s.opening_ply else 0)
                else s.opening_ply } : ExplorerState).opening =
            (if (plugChild parent move s.tree).stack.length ≤ s.opening_ply
              then OPENING_NAMES.lookup (plugChild parent move s.tree).stack
              else s.opening) from rfl] at hnone
          rw [if_pos hcond] at hnone
          show (if (plugChild parent move s.tree).stack.length ≤ s.opening_ply
            then (if (OPENING_NAMES.lookup (plugChild parent move s.tree).stack).isSome
              then s.opening_ply else 0)
            else s.opening_ply) = 0
          rw [if_pos hcond, hnone]
          simp
        · show (if (plugChild parent move s.tree).stack.length ≤ s.opening_ply
            then (if (OPENING_NAMES.lookup (plugChild parent move s.tree).stack).isSome
              then s.opening_ply else 0)
            else s.opening_ply) = 0
          rw [if_neg hcond]
          apply ih
          have hnone2 : (if (plugChild parent move s.tree).stack.length ≤ s.opening_ply
              then OPENING_NAMES.lookup (plugChild parent move s.tree).stack
              else s.opening) = none := hnone
          rw [if_neg hcond] at hnone2
          exact hnone2
  · intro s move s' h hsome
    cases hl : s.tree.children.lookup move with
    | none =>
      rw [advanceE_error s move hl] at h
      exact absurd h (by simp)
    | some child =>
      rw [advanceE_ok s move child hl] at h
      injection h with h2
      have hstk : s'.tree.stack = child.stack := by
        rw [← h2, build_stack]
      have hop : s'.opening = (match OPENING_NAMES.lookup child.stack with
          | some name => some name
          | none => s.opening) := by
        rw [← h2]
      have hply : s'.opening_ply = (if (OPENING_NAMES.lookup child.stack).isSome then
          child.stack.length else s.opening_ply) := by
        rw [← h2]
      rw [hstk] at hsome ⊢
      obtain ⟨name, hcat⟩ := Option.isSome_iff_exists.1 hsome
      rw [hop, hply, hcat]
      simp
  · intro s hne hcond hsome
    cases hctx : s.ctx with
    | nil => exact absurd hctx hne
    | cons q rest =>
      obtain ⟨move, parent⟩ := q
      rw [backtrack_cons s move parent rest hctx] at hcond hsome ⊢
      have hcond2 : (plugChild parent move s.tree).stack.length ≤ s.opening_ply := hcond
      have hsome2 : (OPENING_NAMES.lookup
          (plugChild parent move s.tree).stack).isSome = true := hsome
      constructor
      · show (if (plugChild parent move s.tree).stack.length ≤ s.opening_ply
          then OPENING_NAMES.lookup (plugChild parent move s.tree).stack
          else s.opening) = _
        rw [if_pos hcond2]
      · show (if (plugChild parent move s.tree).stack.length ≤ s.opening_ply
          then (if (OPENING_NAMES.lookup (plugChild parent move s.tree).stack).isSome
            then s.opening_ply else 0)
          else s.opening_ply) = s.opening_ply
        rw [if_pos hcond2, if_pos hsome2]

/-- C5 witness: the sixth advance of the Ruy Lopez session hits the catalog
and records the label at the new depth. -/
theorem c5_opening_ply_policy_witness :
    ruyAfterA6.opening = OPENING_NAMES.lookup ruyAfterA6.tree.stack ∧
      ruyAfterA6.opening_ply = ruyAfterA6.tree.stack.length :=
  c5_opening_ply_policy.2.1 ruyAfterBb5 "a6" ruyAfterA6 rfl rfl

/-- C5 counterexample: backtracking from the Morphy Defense (ply 6) lands at
depth 5 where the re-lookup succeeds ("Ruy Lopez"), so the label was last
assigned at depth 5, yet `opening_ply` remains 6. -/
theorem c5_counterexample :
    ruyBack.tree.stack.length = 5 ∧
      ruyBack.opening = some "Ruy Lopez" ∧
      OPENING_NAMES.lookup ruyBack.tree.stack = some "Ruy Lopez" ∧
      ruyBack.opening_ply = 6 :=
  ⟨rfl, rfl, rfl, rfl⟩

/-- C7: advancing by a present move and immediately backtracking restores the
current node — same ancestor context, stack, counters and children keys — and
recomputes the active games as the color-filtered full game list filtered by
the prior stack (equal as lists, hence as sets). -/
theorem c7_round_trip (s : ExplorerState) (move : String) (s' : ExplorerState)
    (h : s.advanceE move = Except.ok s') :
    s'.backtrack.ctx = s.ctx ∧
      s'.backtrack.tree.stack = s.tree.stack ∧
      s'.backtrack.tree.wins = s.tree.wins ∧
      s'.backtrack.tree.draws = s.tree.draws ∧
      s'.backtrack.tree.losses = s.tree.losses ∧
      s'.backtrack.tree.total = s.tree.total ∧
      s'.backtrack.tree.children.map Prod.fst = s.tree.children.map Prod.fst ∧
      s'.backtrack.games =
        (s.all_games.filter (fun g => g.user_color == s.color)).filter
          (fun g => g.moves.take s.tree.stack.length == s.tree.stack) := by
  cases hl : s.tree.children.lookup move with
  | none =>
    rw [advanceE_error s move hl] at h
    exact absurd h (by simp)
  | some child =>
    rw [advanceE_ok s move child hl] at h
    injection h with h2
    have hctx' : s'.ctx = (move, s.tree) :: s.ctx := by
      rw [← h2]
    have hall : s'.all_games = s.all_games := by
      rw [← h2]
    have hcol : s'.color = s.color := by
      rw [← h2]
    rw [backtrack_cons s' move s.tree s.ctx hctx']
    refine ⟨rfl, ?_, rfl, rfl, rfl, rfl, ?_, ?_⟩
    · exact plugChild_stack s.tree move s'.tree
    · show (updateChild s.tree.children move (fun _ => s'.tree)).map Prod.fst =
        s.tree.children.map Prod.fst
      exact updateChild_map_fst _ _ _
    · show (s'.all_games.filter (fun g =>
          g.moves.take (plugChild s.tree move s'.tree).stack.length ==
            (plugChild s.tree move s'.tree).stack)).filter
          (fun g => g.user_color == s'.color) = _
      rw [hall, hcol]
      rw [show (plugChild s.tree move s'.tree).stack = s.tree.stack from rfl]
      rw [List.filter_filter, List.filter_filter]
      apply List.filter_congr
      intro g _
      rw [Bool.eq_iff_iff]
      simp only [Bool.and_eq_true]
      exact and_comm

/-- C7 witness: advance `e4` from the two-game session and backtrack. -/
theorem c7_round_trip_witness :
    (advanceD demoStart "e4").backtrack.tree.stack = demoStart.tree.stack :=
  (c7_round_trip demoStart "e4" (advanceD demoStart "e4") rfl).2.1
